import Mathlib

/-!
Shallow embedding of the zond host-discovery engine, for checking the
natural-language specification against the code.

Conventions used throughout:
* machine integers (`u32` addresses, `u16` ids, `u128` IPv6 payloads) are
  modelled as `Nat` with explicit modular / saturating arithmetic where the
  source relies on overflow behaviour;
* `Instant` / `Duration` values are `Nat` (nanoseconds);
* hash maps are association lists with `mapInsert` / `mapLookup` / `mapErase`;
* hash sets and btree sets are duplicate-free lists maintained by `setInsert`;
* fallible operations return `Option`, and I/O failure points are made
  explicit boolean parameters.
-/

/-- An IP address: `v4` carries the `u32` value, `v6` the `u128` value. -/
inductive Ip where
  | v4 (addr : Nat)
  | v6 (addr : Nat)
deriving DecidableEq, Repr

/-- Whether the address is IPv4 (`IpAddr::is_ipv4`). -/
def Ip.isV4 : Ip → Bool
  | .v4 _ => true
  | .v6 _ => false

/-- Whether the address is IPv6 (`IpAddr::is_ipv6`). -/
def Ip.isV6 : Ip → Bool
  | .v4 _ => false
  | .v6 _ => true

/-- Embeds `Ipv6Addr::is_unicast_link_local`: the top ten bits are `fe80::/10`,
i.e. `0b1111111010 = 0x3FA`. Always false on IPv4. -/
def Ip.isLinkLocalV6 : Ip → Bool
  | .v4 _ => false
  | .v6 a => a / 2 ^ 118 == 0x3FA

/-- Embeds `utils::ip::is_global_unicast`: the first byte of the IPv6 address lies
in `0x20 ..= 0x3F`. -/
def is_global_unicast (addr : Nat) : Bool :=
  decide (0x20 ≤ addr / 2 ^ 120) && decide (addr / 2 ^ 120 ≤ 0x3F)

/-- Embeds `resolver::is_queryable`: IPv4 is always queryable, IPv6 only when
globally unicast. -/
def is_queryable : Ip → Bool
  | .v4 _ => true
  | .v6 a => is_global_unicast a

section AssocMap

variable {α : Type} {β : Type} [DecidableEq α]

/-- Embeds `HashMap::insert`: the new binding for `k` replaces any previous one. -/
def mapInsert (k : α) (v : β) (m : List (α × β)) : List (α × β) :=
  (k, v) :: m.filter (fun p => decide (p.1 ≠ k))

/-- Embeds `HashMap::get`: the value bound to `k`, if any. -/
def mapLookup (k : α) (m : List (α × β)) : Option β :=
  (m.find? (fun p => decide (p.1 = k))).map (·.2)

/-- Embeds `HashMap::remove` (dropping the returned value). -/
def mapErase (k : α) (m : List (α × β)) : List (α × β) :=
  m.filter (fun p => decide (p.1 ≠ k))

theorem mapLookup_mapInsert_self (k : α) (v : β) (m : List (α × β)) :
    mapLookup k (mapInsert k v m) = some v := by
  simp [mapLookup, mapInsert]

theorem mapLookup_mapErase_self (k : α) (m : List (α × β)) :
    mapLookup k (mapErase k m) = none := by
  simp only [mapLookup, mapErase, Option.map_eq_none', List.find?_eq_none,
    List.mem_filter, decide_eq_true_eq]
  intro p hp
  simp [hp.2]

/-- Embeds `HashSet::insert` / `BTreeSet::insert` on a list kept duplicate-free. -/
def setInsert (x : α) (l : List α) : List α :=
  if x ∈ l then l else l ++ [x]

theorem mem_setInsert (x y : α) (l : List α) :
    y ∈ setInsert x l ↔ y = x ∨ y ∈ l := by
  unfold setInsert
  by_cases h : x ∈ l
  · simp only [if_pos h]
    constructor
    · intro hy; right; exact hy
    · rintro (rfl | hy); exacts [h, hy]
  · simp [if_neg h, or_comm]

theorem subset_setInsert (x : α) (l : List α) : l ⊆ setInsert x l := by
  intro y hy; rw [mem_setInsert]; right; exact hy

end AssocMap

/-! ## Scan Timer (`common/src/utils/timing.rs`) -/

/-- Rust's `Option::unwrap_or` data for `Duration::checked_sub`:
`a.checked_sub b = some (a - b)` when `b ≤ a`, else `none`. -/
def checkedSub (a b : Nat) : Option Nat :=
  if b ≤ a then some (a - b) else none

/-- Embeds `Duration::from_millis(100)` in nanoseconds, the `next_wait` fallback. -/
def fallbackWait : Nat := 100000000

/-- Embeds `ScanTimer`: three configuration instants/durations plus the mutable
`last_seen` instant, all in nanoseconds. -/
structure ScanTimer where
  hard_deadline : Nat
  min_runtime : Nat
  max_silence : Nat
  last_seen : Nat
deriving DecidableEq, Repr

/-- Embeds `ScanTimer::new`: deadlines are offsets from the current instant. -/
def ScanTimer.new (now max_total_duration min_runtime_duration max_silence : Nat) :
    ScanTimer :=
  ⟨now + max_total_duration, now + min_runtime_duration, max_silence, now⟩

/-- Embeds `ScanTimer::mark_seen`. -/
def ScanTimer.mark_seen (t : ScanTimer) (now : Nat) : ScanTimer :=
  { t with last_seen := now }

/-- Embeds `ScanTimer::next_wait`. `Instant::duration_since` saturates at zero,
hence the truncated subtraction. -/
def ScanTimer.next_wait (t : ScanTimer) (now : Nat) : Nat :=
  (checkedSub t.max_silence (now - t.last_seen)).getD fallbackWait

/-- Embeds `ScanTimer::is_expired`, with its two early returns. -/
def ScanTimer.is_expired (t : ScanTimer) (now : Nat) : Bool :=
  if t.hard_deadline < now then true
  else if t.min_runtime < now && t.max_silence ≤ now - t.last_seen then true
  else false

/-- Embeds `ScanTimer::should_break_on_timeout`. -/
def ScanTimer.should_break_on_timeout (t : ScanTimer) (now : Nat) : Bool :=
  decide (t.min_runtime ≤ now)

/-- Claim C7: `mark_seen` sets `last_seen` to the current time (and nothing
else); `is_expired` is true exactly when `now > hard_deadline`, or
`now > min_runtime` and `now - last_seen ≥ max_silence`; `next_wait` is
`max_silence - (now - last_seen)`, with a 100 ms fallback when that
difference is negative; `should_break_on_timeout` is true exactly when
`now ≥ min_runtime`. -/
theorem scan_timer_spec (t : ScanTimer) (now : Nat) :
    (t.mark_seen now).last_seen = now ∧
    (t.mark_seen now).hard_deadline = t.hard_deadline ∧
    (t.mark_seen now).min_runtime = t.min_runtime ∧
    (t.mark_seen now).max_silence = t.max_silence ∧
    (t.is_expired now = true ↔
      t.hard_deadline < now ∨
        (t.min_runtime < now ∧ t.max_silence ≤ now - t.last_seen)) ∧
    t.next_wait now =
      (if now - t.last_seen ≤ t.max_silence then
        t.max_silence - (now - t.last_seen)
       else fallbackWait) ∧
    (t.should_break_on_timeout now = true ↔ t.min_runtime ≤ now) := by
  refine ⟨rfl, rfl, rfl, rfl, ?_, ?_, by simp [ScanTimer.should_break_on_timeout]⟩
  · unfold ScanTimer.is_expired
    split
    · simp; omega
    · split
      · next h2 =>
        simp only [Bool.and_eq_true, decide_eq_true_eq] at h2
        simp; omega
      · next h1 h2 =>
        simp only [Bool.and_eq_true, decide_eq_true_eq, not_and] at h2
        simp only [Bool.false_eq_true, false_iff, not_or, not_and, not_le]
        omega
  · unfold ScanTimer.next_wait checkedSub
    split <;> rename_i h <;> simp [h]

/-! ## Target parsing: the `lan` keyword (`common/src/models/target.rs`) -/

/-- The largest `u32` value. -/
def u32Max : Nat := 4294967295

/-- Embeds `u32::saturating_add(1)` for values in `u32` range. -/
def satSucc (x : Nat) : Nat := min (x + 1) u32Max

/-- Embeds `Ipv4Range` over the `u32` ordering of addresses. -/
structure Ipv4Range where
  start_addr : Nat
  end_addr : Nat
deriving DecidableEq, Repr

/-- Embeds `Ipv4Range::new`: reverses the endpoints when given out of order. -/
def Ipv4Range.new (s e : Nat) : Ipv4Range :=
  if s ≤ e then ⟨s, e⟩ else ⟨e, s⟩

/-- Embeds `Ipv4Range::len`: `end - start + 1`, or `0` for an inverted pair. -/
def Ipv4Range.len (r : Ipv4Range) : Nat :=
  if r.start_addr ≤ r.end_addr then r.end_addr - r.start_addr + 1 else 0

/-- Embeds `Ipv4Range::contains` over the `u32` ordering. -/
def Ipv4Range.containsAddr (r : Ipv4Range) (a : Nat) : Bool :=
  decide (r.start_addr ≤ a) && decide (a ≤ r.end_addr)

/-- Embeds `eq_ignore_ascii_case("lan")` on the trimmed token. -/
def isLanKeyword (s : String) : Bool :=
  s.toList.map Char.toLower == "lan".toList

/-- Result of `target::resolve_lan`: the range pushed into the collection,
whether `IS_LAN_SCAN` was stored, and whether the "too small" warning ran. -/
structure LanResolution where
  added : Ipv4Range
  lan_flag_set : Bool
  warned : Bool
deriving DecidableEq, Repr

/-- Embeds `target::resolve_lan`, given the interface network's network and
broadcast addresses as `u32` values. -/
def resolve_lan (network broadcast : Nat) : LanResolution :=
  let start_u32 := satSucc network
  let end_u32 := broadcast - 1
  if start_u32 ≤ end_u32 then
    ⟨Ipv4Range.new start_u32 end_u32, true, false⟩
  else
    ⟨Ipv4Range.new network broadcast, false, true⟩

/-- Claim C5: for a `lan` token (case-insensitive) on a network with at
least two usable hosts, `resolve_lan` adds the usable-host range
`(network+1 .. broadcast-1)` and sets `IS_LAN_SCAN`; on a `/31`-or-smaller
network (fewer than two usable hosts) it adds the full
`[network .. broadcast]` range with a warning and without the flag; on a
`/30` network (`broadcast = network + 3`) the added range has exactly two
usable hosts. -/
theorem resolve_lan_spec (s : String) (network broadcast : Nat)
    (hkw : isLanKeyword s = true)
    (hle : network ≤ broadcast) (hub : broadcast < 2 ^ 32) :
    isLanKeyword s = true ∧
    (network + 2 ≤ broadcast →
      resolve_lan network broadcast =
        ⟨⟨network + 1, broadcast - 1⟩, true, false⟩ ∧
      (resolve_lan network broadcast).added.len = broadcast - network - 1) ∧
    (broadcast < network + 2 →
      resolve_lan network broadcast = ⟨⟨network, broadcast⟩, false, true⟩) ∧
    (broadcast = network + 3 → (resolve_lan network broadcast).added.len = 2) := by
  refine ⟨hkw, ?_, ?_, ?_⟩
  · intro h
    have hsat : satSucc network = network + 1 := by
      unfold satSucc u32Max; omega
    constructor
    · unfold resolve_lan
      rw [hsat]
      have h1 : network + 1 ≤ broadcast - 1 := by omega
      simp only [h1, if_pos]
      unfold Ipv4Range.new
      simp [h1]
    · unfold resolve_lan
      rw [hsat]
      have h1 : network + 1 ≤ broadcast - 1 := by omega
      simp only [h1, if_pos]
      unfold Ipv4Range.new Ipv4Range.len
      simp only [h1, if_pos]
      omega
  · intro h
    unfold resolve_lan
    have h1 : ¬(satSucc network ≤ broadcast - 1) := by
      unfold satSucc u32Max; omega
    simp only [h1, if_neg, if_false]
    unfold Ipv4Range.new
    simp [hle]
  · intro h
    have hsat : satSucc network = network + 1 := by
      unfold satSucc u32Max; omega
    unfold resolve_lan
    rw [hsat]
    have h1 : network + 1 ≤ broadcast - 1 := by omega
    simp only [h1, if_pos]
    unfold Ipv4Range.new Ipv4Range.len
    simp only [h1, if_pos]
    omega

/-- Evaluation witness for the claim C5 theorem at a concrete `/30`
network (`network = 8`, `broadcast = 11`) and the token `"LaN"`. -/
theorem resolve_lan_spec_witness :
    isLanKeyword "LaN" = true ∧
    (8 + 2 ≤ 11 →
      resolve_lan 8 11 = ⟨⟨8 + 1, 11 - 1⟩, true, false⟩ ∧
      (resolve_lan 8 11).added.len = 11 - 8 - 1) ∧
    (11 < 8 + 2 → resolve_lan 8 11 = ⟨⟨8, 11⟩, false, true⟩) ∧
    (11 = 8 + 3 → (resolve_lan 8 11).added.len = 2) :=
  resolve_lan_spec "LaN" 8 11 (by decide) (by decide) (by norm_num)

/-! ## Resolver outbound path (`core/src/scanner/resolver.rs`) -/

/-- Result of one `send_dns_query` call: whether it returned `Ok`, the
resulting `dns_map`, and the updated transaction-id counter. -/
structure DnsQueryOutcome where
  ok : Bool
  dns_map : List (Nat × Ip)
  id_counter : Nat
deriving DecidableEq

/-- Embeds `HostnameResolver::send_dns_query`. The `ensure!(is_queryable ...)`
guard runs before any state change; the `dns_map` insert happens before the
packet is built and sent. `build_ok` stands for `create_ptr_packet` and
`udp::create_packet` both succeeding, `send_ok` for the raw send
succeeding; either failing makes the call return an error, with no
rollback of the inserted entry. `fetch_add` on the `AtomicU16` counter
wraps modulo `2^16`. -/
def send_dns_query (dns_map : List (Nat × Ip)) (id_counter : Nat) (ip : Ip)
    (build_ok send_ok : Bool) : DnsQueryOutcome :=
  if !is_queryable ip then ⟨false, dns_map, id_counter⟩
  else
    let id := id_counter % 65536
    let m := mapInsert id ip dns_map
    ⟨build_ok && send_ok, m, (id_counter + 1) % 65536⟩

/-- The shutdown drain in `HostnameResolver::run`: when the input queue has
closed, a wait of at most 250 ms (in nanoseconds here) happens exactly when
`dns_map` is non-empty. -/
def drain_wait (dns_map : List (Nat × Ip)) : Option Nat :=
  if dns_map.isEmpty then none else some 250000000

/-- Claim C10: a non-queryable IP makes `send_dns_query` fail before any
state change, leaving `dns_map` unchanged; for a queryable IP the
transaction-id entry is inserted into `dns_map` before the packet is built
and sent, so when building or sending fails the call errors but the entry
remains, and any such non-empty `dns_map` makes the shutdown drain wait up
to 250 ms. -/
theorem send_dns_query_spec (dns_map : List (Nat × Ip)) (id_counter : Nat)
    (ip : Ip) (build_ok send_ok : Bool) :
    (is_queryable ip = false →
      send_dns_query dns_map id_counter ip build_ok send_ok =
        ⟨false, dns_map, id_counter⟩) ∧
    (is_queryable ip = true →
      (send_dns_query dns_map id_counter ip build_ok send_ok).dns_map =
        mapInsert (id_counter % 65536) ip dns_map ∧
      mapLookup (id_counter % 65536)
          (send_dns_query dns_map id_counter ip build_ok send_ok).dns_map =
        some ip ∧
      ((build_ok && send_ok) = false →
        (send_dns_query dns_map id_counter ip build_ok send_ok).ok = false) ∧
      drain_wait
          (send_dns_query dns_map id_counter ip build_ok send_ok).dns_map =
        some 250000000) := by
  constructor
  · intro h
    simp [send_dns_query, h]
  · intro h
    refine ⟨?_, ?_, ?_, ?_⟩
    · simp [send_dns_query, h]
    · simp [send_dns_query, h, mapLookup_mapInsert_self]
    · intro hf
      simp [send_dns_query, h, hf]
    · simp [send_dns_query, h, drain_wait, mapInsert]

/-- Evaluation witness for the claim C10 theorem at a queryable
global-unicast IPv6 target (first byte `0x20`) whose send fails: the entry
stays in `dns_map` and triggers the 250 ms drain. -/
theorem send_dns_query_spec_witness :
    (is_queryable (.v6 (0x20 * 2 ^ 120)) = false →
      send_dns_query [] 7 (.v6 (0x20 * 2 ^ 120)) true false = ⟨false, [], 7⟩) ∧
    (is_queryable (.v6 (0x20 * 2 ^ 120)) = true →
      (send_dns_query [] 7 (.v6 (0x20 * 2 ^ 120)) true false).dns_map =
        mapInsert (7 % 65536) (.v6 (0x20 * 2 ^ 120)) [] ∧
      mapLookup (7 % 65536)
          (send_dns_query [] 7 (.v6 (0x20 * 2 ^ 120)) true false).dns_map =
        some (.v6 (0x20 * 2 ^ 120)) ∧
      ((true && false) = false →
        (send_dns_query [] 7 (.v6 (0x20 * 2 ^ 120)) true false).ok = false) ∧
      drain_wait
          (send_dns_query [] 7 (.v6 (0x20 * 2 ^ 120)) true false).dns_map =
        some 250000000) :=
  send_dns_query_spec [] 7 (.v6 (0x20 * 2 ^ 120)) true false

/-! ## Host model (`common/src/models/host.rs`) -/

/-- The `Host` entity. `vendor`, `ports` and `network_roles` are never read
by the claims under check and are projected away. The `BTreeSet` of IPs is
a duplicate-free list, the RTT `VecDeque` a list with its front at the
head. -/
structure Host where
  primary_ip : Ip
  hostname : Option (List Char)
  ips : List Ip
  mac : Option Nat
  rtt_history : List Nat
deriving DecidableEq, Repr

/-- Embeds `Host::new`: the primary IP is the sole member of `ips`. -/
def Host.new (ip : Ip) : Host :=
  ⟨ip, none, [ip], none, []⟩

/-- Embeds `Host::with_mac` (the derived vendor is projected away). -/
def Host.with_mac (h : Host) (m : Nat) : Host :=
  { h with mac := some m }

/-- Embeds `Host::add_rtt`: push back, then a single pop from the front when the
length exceeds 10. -/
def Host.add_rtt (h : Host) (d : Nat) : Host :=
  let l := h.rtt_history ++ [d]
  { h with rtt_history := if 10 < l.length then l.tail else l }

/-- Embeds `Host::set_rtts`: replace the deque, then pop from the front while the
length exceeds 10. -/
def Host.set_rtts (h : Host) (l : List Nat) : Host :=
  { h with rtt_history := l.drop (l.length - 10) }

/-- Embeds `Host::min_rtt`: minimum of the stored samples. -/
def Host.min_rtt (h : Host) : Option Nat :=
  h.rtt_history.min?

/-- Embeds `Host::max_rtt`: maximum of the stored samples. -/
def Host.max_rtt (h : Host) : Option Nat :=
  h.rtt_history.max?

/-- Embeds `Host::average_rtt`: `none` on an empty history, else the sum divided
by the count (integer `Duration` division, i.e. `Nat` division on
nanosecond values). -/
def Host.average_rtt (h : Host) : Option Nat :=
  if h.rtt_history.isEmpty then none
  else some (h.rtt_history.sum / h.rtt_history.length)

/-- An RTT-history operation on a host: `Host::add_rtt` or
`Host::set_rtts`. -/
inductive RttOp where
  | add (d : Nat)
  | replace (l : List Nat)
deriving DecidableEq, Repr

def applyRttOp (h : Host) : RttOp → Host
  | .add d => h.add_rtt d
  | .replace l => h.set_rtts l

theorem applyRttOp_length_le (h : Host) (op : RttOp)
    (hh : h.rtt_history.length ≤ 10) :
    (applyRttOp h op).rtt_history.length ≤ 10 := by
  cases op with
  | add d =>
    simp only [applyRttOp, Host.add_rtt]
    split <;> simp_all
  | replace l =>
    simp only [applyRttOp, Host.set_rtts, List.length_drop]
    omega

theorem foldl_applyRttOp_length_le (ops : List RttOp) (h : Host)
    (hh : h.rtt_history.length ≤ 10) :
    (ops.foldl applyRttOp h).rtt_history.length ≤ 10 := by
  induction ops generalizing h with
  | nil => exact hh
  | cons op rest ih =>
    exact ih _ (applyRttOp_length_le h op hh)

/-- Claim C8: starting from `Host::new`, after any sequence of `add_rtt`
and `set_rtts` operations the RTT history holds at most 10 samples; each
operation keeps a suffix of the offered samples (the most recent ones);
`min_rtt`, `max_rtt` and `average_rtt` are `none` exactly when the history
is empty; the average is the integer quotient of the sum by the count. -/
theorem host_rtt_spec (ip : Ip) (ops : List RttOp) :
    ((ops.foldl applyRttOp (Host.new ip)).rtt_history.length ≤ 10) ∧
    ((ops.foldl applyRttOp (Host.new ip)).min_rtt = none ↔
      (ops.foldl applyRttOp (Host.new ip)).rtt_history = []) ∧
    ((ops.foldl applyRttOp (Host.new ip)).max_rtt = none ↔
      (ops.foldl applyRttOp (Host.new ip)).rtt_history = []) ∧
    ((ops.foldl applyRttOp (Host.new ip)).average_rtt = none ↔
      (ops.foldl applyRttOp (Host.new ip)).rtt_history = []) ∧
    ((ops.foldl applyRttOp (Host.new ip)).rtt_history ≠ [] →
      (ops.foldl applyRttOp (Host.new ip)).average_rtt =
        some ((ops.foldl applyRttOp (Host.new ip)).rtt_history.sum /
          (ops.foldl applyRttOp (Host.new ip)).rtt_history.length)) ∧
    (∀ g : Host, ∀ d : Nat,
      (g.add_rtt d).rtt_history.IsSuffix (g.rtt_history ++ [d])) ∧
    (∀ g : Host, ∀ l : List Nat, (g.set_rtts l).rtt_history.IsSuffix l) := by
  refine ⟨foldl_applyRttOp_length_le ops (Host.new ip) (by simp [Host.new]),
    ?_, ?_, ?_, ?_, ?_, ?_⟩
  · exact List.min?_eq_none_iff
  · exact List.max?_eq_none_iff
  · simp only [Host.average_rtt]
    split <;> simp_all [List.isEmpty_iff]
  · intro hne
    simp [Host.average_rtt, List.isEmpty_iff, hne]
  · intro g d
    simp only [Host.add_rtt]
    split
    · exact (g.rtt_history ++ [d]).tail_suffix
    · exact List.suffix_refl _
  · intro g l
    simp only [Host.set_rtts]
    exact l.drop_suffix _

/-! ## Host IP-set operations and the primary-IP invariant -/

/-- The mDNS record extracted from a packet: optional hostname plus a set
of IPs (`protocols/src/mdns.rs`). -/
structure MdnsRecord where
  hostname : Option (List Char)
  ips : List Ip
deriving DecidableEq, Repr

/-- The cache key chosen by `HostnameResolver::process_mdns_packet`: the
first IPv4 in the record's IP set, else the first unicast link-local IPv6,
else the first IP overall. -/
def preferred_ip (l : List Ip) : Option Ip :=
  match l.find? Ip.isV4 with
  | some ip => some ip
  | none =>
    match l.find? Ip.isLinkLocalV6 with
    | some ip => some ip
    | none => l.head?

/-- The IP-observation step of `LocalScanner::process_eth_packet` (lines
200–204): insert the source IP into `ips`, then upgrade `primary_ip` when
the incoming IP is IPv4 and the current primary is IPv6. -/
def Host.observe_ip (h : Host) (ip : Ip) : Host :=
  if ip.isV4 && h.primary_ip.isV6 then
    { h with ips := setInsert ip h.ips, primary_ip := ip }
  else { h with ips := setInsert ip h.ips }

/-- The DNS part of `HostnameResolver::resolve_hosts`: take the hostname
only when the host has none. -/
def Host.dns_join (h : Host) (name : List Char) : Host :=
  if h.hostname.isNone then { h with hostname := some name } else h

/-- The mDNS part of `HostnameResolver::resolve_hosts`: take the record's
hostname when the host has none and the record has one, then union the
record's IPs into `ips`. -/
def Host.mdns_join (h : Host) (r : MdnsRecord) : Host :=
  let h1 :=
    if h.hostname.isNone && r.hostname.isSome then { h with hostname := r.hostname }
    else h
  { h1 with ips := r.ips.foldl (fun l ip => setInsert ip l) h1.ips }

/-- One operation on a host performed by the scanners or the resolver join
phase. The `mdnsJoin` key `k` is the cache key under which the record was
found. -/
inductive HostOp where
  | observe (ip : Ip)
  | dnsName (name : List Char)
  | mdnsJoin (k : Ip) (r : MdnsRecord)
deriving DecidableEq, Repr

def applyHostOp (h : Host) : HostOp → Host
  | .observe ip => h.observe_ip ip
  | .dnsName n => h.dns_join n
  | .mdnsJoin _ r => h.mdns_join r

/-- An operation is legal in state `h` when it can actually occur in the
program: an `mdnsJoin` record comes out of `mdns_cache` at a key that is
one of the host's IPs, and every cache entry was stored by
`process_mdns_packet` under its `preferred_ip`. -/
def legal_op (h : Host) : HostOp → Bool
  | .observe _ => true
  | .dnsName _ => true
  | .mdnsJoin k r => decide (k ∈ h.ips) && (preferred_ip r.ips == some k)

def legal_chain : Host → List HostOp → Bool
  | _, [] => true
  | h, op :: rest => legal_op h op && legal_chain (applyHostOp h op) rest

/-- The claim C1 invariant. -/
def HostInv (h : Host) : Prop :=
  h.primary_ip ∈ h.ips ∧
    ∀ ip ∈ h.ips, ip.isV4 = true → h.primary_ip.isV4 = true

theorem mem_foldl_setInsert (adds : List Ip) (l : List Ip) (y : Ip) :
    y ∈ adds.foldl (fun acc ip => setInsert ip acc) l ↔ y ∈ l ∨ y ∈ adds := by
  induction adds generalizing l with
  | nil => simp
  | cons a rest ih =>
    simp only [List.foldl_cons, ih, mem_setInsert, List.mem_cons]
    tauto

theorem preferred_ip_of_v4_mem {l : List Ip} {w : Ip} (hw : w ∈ l)
    (hv4 : w.isV4 = true) :
    ∃ k, preferred_ip l = some k ∧ k.isV4 = true := by
  have hfind : (l.find? Ip.isV4).isSome := by
    rw [List.find?_isSome]
    exact ⟨w, hw, hv4⟩
  obtain ⟨k, hk⟩ := Option.isSome_iff_exists.mp hfind
  refine ⟨k, ?_, List.find?_some hk⟩
  simp [preferred_ip, hk]

theorem hostInv_observe (h : Host) (ip : Ip) (hinv : HostInv h) :
    HostInv (h.observe_ip ip) := by
  obtain ⟨hmem, hv4⟩ := hinv
  unfold Host.observe_ip
  split
  · next hcond =>
    simp only [Bool.and_eq_true] at hcond
    constructor
    · rw [mem_setInsert]; left; rfl
    · intro _ _ _; exact hcond.1
  · next hcond =>
    constructor
    · exact subset_setInsert ip h.ips hmem
    · intro x hx hx4
      rcases (mem_setInsert ip x h.ips).mp hx with rfl | hxin
      · cases hp : h.primary_ip with
        | v4 a => simp [Ip.isV4]
        | v6 a =>
          exfalso
          apply hcond
          simp [hx4, hp, Ip.isV6]
      · exact hv4 x hxin hx4

theorem hostInv_dns_join (h : Host) (n : List Char) (hinv : HostInv h) :
    HostInv (h.dns_join n) := by
  obtain ⟨hmem, hv4⟩ := hinv
  unfold Host.dns_join
  split <;> exact ⟨hmem, hv4⟩

theorem hostInv_mdns_join (h : Host) (k : Ip) (r : MdnsRecord)
    (hinv : HostInv h) (hk : k ∈ h.ips) (hpref : preferred_ip r.ips = some k) :
    HostInv (h.mdns_join r) := by
  obtain ⟨hmem, hv4⟩ := hinv
  unfold Host.mdns_join
  have hsplit :
      (if h.hostname.isNone && r.hostname.isSome then { h with hostname := r.hostname }
       else h).ips = h.ips ∧
      (if h.hostname.isNone && r.hostname.isSome then { h with hostname := r.hostname }
       else h).primary_ip = h.primary_ip := by
    split <;> exact ⟨rfl, rfl⟩
  constructor
  · simp only [hsplit.1, hsplit.2, mem_foldl_setInsert]
    left; exact hmem
  · simp only [hsplit.1, hsplit.2, mem_foldl_setInsert]
    intro x hx hx4
    rcases hx with hxin | hxadd
    · exact hv4 x hxin hx4
    · obtain ⟨k2, hk2, hk24⟩ := preferred_ip_of_v4_mem hxadd hx4
      rw [hpref] at hk2
      injection hk2 with hk2
      subst hk2
      exact hv4 k hk hk24

theorem hostInv_chain (ops : List HostOp) (h : Host) (hinv : HostInv h)
    (hlegal : legal_chain h ops = true) :
    HostInv (ops.foldl applyHostOp h) := by
  induction ops generalizing h with
  | nil => exact hinv
  | cons op rest ih =>
    simp only [legal_chain, Bool.and_eq_true] at hlegal
    refine ih (applyHostOp h op) ?_ hlegal.2
    cases op with
    | observe x => exact hostInv_observe h x hinv
    | dnsName n => exact hostInv_dns_join h n hinv
    | mdnsJoin k r =>
      have hop := hlegal.1
      simp only [legal_op, Bool.and_eq_true, decide_eq_true_eq, beq_iff_eq] at hop
      exact hostInv_mdns_join h k r hinv hop.1 hop.2

/-- Claim C1: for every host built by `Host::new` and every sequence of
legal operations — local-scanner IP observation with primary-IP upgrade,
resolver DNS hostname joins, and resolver mDNS joins whose record was
cached under its `preferred_ip` key — the primary IP is an element of
`ips`, and as soon as `ips` contains an IPv4 address the primary IP is
IPv4. -/
theorem host_primary_ip_invariant (ip : Ip) (ops : List HostOp)
    (hlegal : legal_chain (Host.new ip) ops = true) :
    HostInv (ops.foldl applyHostOp (Host.new ip)) := by
  have hbase : HostInv (Host.new ip) := by
    constructor
    · simp [Host.new]
    · intro x hx hx4
      simp only [Host.new, List.mem_singleton] at hx
      subst hx
      exact hx4
  exact hostInv_chain ops (Host.new ip) hbase hlegal

/-- Evaluation witness for the claim C1 theorem: a host first seen via a
link-local-free IPv6 address joins an all-IPv6 mDNS record cached under
that address, then observes an IPv4 (upgrading the primary) and another
IPv6. -/
theorem host_primary_ip_invariant_witness :
    legal_chain (Host.new (.v6 100))
        [.mdnsJoin (.v6 100) ⟨some "printer".toList, [.v6 100, .v6 7]⟩,
          .observe (.v4 5), .observe (.v6 9)] = true ∧
    HostInv
      ([HostOp.mdnsJoin (.v6 100) ⟨some "printer".toList, [.v6 100, .v6 7]⟩,
          HostOp.observe (.v4 5), HostOp.observe (.v6 9)].foldl applyHostOp
        (Host.new (.v6 100))) :=
  ⟨by decide,
    host_primary_ip_invariant (.v6 100)
      [.mdnsJoin (.v6 100) ⟨some "printer".toList, [.v6 100, .v6 7]⟩,
        .observe (.v4 5), .observe (.v6 9)] (by decide)⟩

/-! ## mDNS record extraction (`protocols/src/mdns.rs`) and the resolver
cache (`core/src/scanner/resolver.rs`) -/

/-- One resource record as seen by `extract_resource` after parsing:
`answers` chained with `additional`, each carrying its `RData`. -/
inductive RdataRec where
  | ptr (name : List Char)
  | a (addr : Nat)
  | aaaa (addr : Nat)
  | other
deriving DecidableEq, Repr

/-- The characters of `".arpa"`. -/
def arpaSuffix : List Char := ".arpa".toList

/-- One iteration of the record walk in `mdns::extract_resource`. -/
def mdnsStep (m : MdnsRecord) : RdataRec → MdnsRecord
  | .ptr name =>
    if arpaSuffix.isSuffixOf name then m else { m with hostname := some name }
  | .a addr => { m with ips := setInsert (Ip.v4 addr) m.ips }
  | .aaaa addr => { m with ips := setInsert (Ip.v6 addr) m.ips }
  | .other => m

/-- Embeds `mdns::extract_resource`: walk answers chained with additionals,
starting from the default record. -/
def extract_resource (records : List RdataRec) : MdnsRecord :=
  records.foldl mdnsStep ⟨none, []⟩

/-- Embeds `HostnameResolver::process_mdns_packet`: extract the record and insert
it into `mdns_cache` under its preferred IP, if any. -/
def process_mdns_packet (cache : List (Ip × MdnsRecord))
    (records : List RdataRec) : List (Ip × MdnsRecord) :=
  match preferred_ip (extract_resource records).ips with
  | some k => mapInsert k (extract_resource records) cache
  | none => cache

/-- The name carried by a PTR record that does not end in `".arpa"`. -/
def nonArpaPtrName : RdataRec → Option (List Char)
  | .ptr name => if arpaSuffix.isSuffixOf name then none else some name
  | _ => none

/-- Modelled from the spec's words for comparison: "keep the first
encountered PTR name that does not end in `.arpa`". -/
def first_non_arpa_ptr (records : List RdataRec) : Option (List Char) :=
  (records.filterMap nonArpaPtrName).head?

/-- The last non-`.arpa` PTR name of the walk, which is what the code's
repeated overwrite keeps. -/
def last_non_arpa_ptr (records : List RdataRec) : Option (List Char) :=
  (records.filterMap nonArpaPtrName).getLast?

/-- The address carried by an `A` or `AAAA` record. -/
def addrOf : RdataRec → Option Ip
  | .a n => some (.v4 n)
  | .aaaa n => some (.v6 n)
  | _ => none

theorem extract_resource_hostname (records : List RdataRec) :
    (extract_resource records).hostname = last_non_arpa_ptr records := by
  induction records using List.reverseRecOn with
  | nil => rfl
  | append_singleton l rec ih =>
    unfold extract_resource at ih ⊢
    rw [List.foldl_append]
    unfold last_non_arpa_ptr at ih ⊢
    rw [List.filterMap_append]
    cases rec with
    | ptr name =>
      by_cases harpa : arpaSuffix.isSuffixOf name = true
      · have h1 : List.filterMap nonArpaPtrName [RdataRec.ptr name] = [] := by
          simp [nonArpaPtrName, harpa]
        rw [h1, List.append_nil]
        simp only [List.foldl_cons, List.foldl_nil, mdnsStep, if_pos harpa]
        exact ih
      · have h1 : List.filterMap nonArpaPtrName [RdataRec.ptr name] = [name] := by
          simp [nonArpaPtrName, harpa]
        rw [h1, List.getLast?_concat]
        simp only [List.foldl_cons, List.foldl_nil, mdnsStep, if_neg harpa]
    | a addr =>
      have h1 : List.filterMap nonArpaPtrName [RdataRec.a addr] = [] := by
        simp [nonArpaPtrName]
      rw [h1, List.append_nil]
      simpa [mdnsStep] using ih
    | aaaa addr =>
      have h1 : List.filterMap nonArpaPtrName [RdataRec.aaaa addr] = [] := by
        simp [nonArpaPtrName]
      rw [h1, List.append_nil]
      simpa [mdnsStep] using ih
    | other =>
      have h1 : List.filterMap nonArpaPtrName [RdataRec.other] = [] := by
        simp [nonArpaPtrName]
      rw [h1, List.append_nil]
      simpa [mdnsStep] using ih

theorem extract_resource_mem_ips (records : List RdataRec) (ip : Ip) :
    ip ∈ (extract_resource records).ips ↔ ip ∈ records.filterMap addrOf := by
  induction records using List.reverseRecOn with
  | nil => simp [extract_resource]
  | append_singleton l rec ih =>
    unfold extract_resource at ih ⊢
    rw [List.foldl_append, List.filterMap_append]
    cases rec with
    | ptr name =>
      have h1 : List.filterMap addrOf [RdataRec.ptr name] = [] := by
        simp [addrOf]
      rw [h1, List.append_nil]
      simp only [List.foldl_cons, List.foldl_nil, mdnsStep]
      split <;> simpa using ih
    | a addr =>
      have h1 : List.filterMap addrOf [RdataRec.a addr] = [Ip.v4 addr] := by
        simp [addrOf]
      rw [h1]
      simp only [List.foldl_cons, List.foldl_nil, mdnsStep, mem_setInsert,
        List.mem_append, List.mem_singleton]
      rw [ih]
      tauto
    | aaaa addr =>
      have h1 : List.filterMap addrOf [RdataRec.aaaa addr] = [Ip.v6 addr] := by
        simp [addrOf]
      rw [h1]
      simp only [List.foldl_cons, List.foldl_nil, mdnsStep, mem_setInsert,
        List.mem_append, List.mem_singleton]
      rw [ih]
      tauto
    | other =>
      have h1 : List.filterMap addrOf [RdataRec.other] = [] := by
        simp [addrOf]
      rw [h1, List.append_nil]
      simpa [mdnsStep] using ih

theorem preferred_ip_of_ll_mem {l : List Ip} {w : Ip}
    (hnov4 : ∀ ip ∈ l, Ip.isV4 ip = false) (hw : w ∈ l)
    (hll : w.isLinkLocalV6 = true) :
    ∃ k, l.find? Ip.isLinkLocalV6 = some k ∧ preferred_ip l = some k := by
  have h4 : l.find? Ip.isV4 = none := by
    rw [List.find?_eq_none]
    intro x hx
    simp [hnov4 x hx]
  have hfind : (l.find? Ip.isLinkLocalV6).isSome := by
    rw [List.find?_isSome]
    exact ⟨w, hw, hll⟩
  obtain ⟨k, hk⟩ := Option.isSome_iff_exists.mp hfind
  exact ⟨k, hk, by simp [preferred_ip, h4, hk]⟩

theorem preferred_ip_of_plain {l : List Ip}
    (hno : ∀ ip ∈ l, Ip.isV4 ip = false ∧ Ip.isLinkLocalV6 ip = false)
    (hne : l ≠ []) :
    ∃ k, l.head? = some k ∧ preferred_ip l = some k := by
  have h4 : l.find? Ip.isV4 = none := by
    rw [List.find?_eq_none]
    intro x hx
    simp [(hno x hx).1]
  have hll : l.find? Ip.isLinkLocalV6 = none := by
    rw [List.find?_eq_none]
    intro x hx
    simp [(hno x hx).2]
  obtain ⟨k, hk⟩ := Option.isSome_iff_exists.mp
    (by rwa [List.head?_isSome] : l.head?.isSome)
  exact ⟨k, hk, by simp [preferred_ip, h4, hll, hk]⟩

/-- Claim C2 (amended): walking answers chained with additionals, the
extracted record's hostname is the LAST encountered PTR name not ending in
`".arpa"` (each non-arpa PTR overwrites the previous one); its IP set is
exactly the `A`/`AAAA` records; and the cache entry is keyed by the first
IPv4 in the set, else the first unicast link-local IPv6, else the first IP
overall, with no entry stored when the set is empty. -/
theorem process_mdns_packet_spec (records : List RdataRec)
    (cache : List (Ip × MdnsRecord)) :
    (extract_resource records).hostname = last_non_arpa_ptr records ∧
    (∀ ip, ip ∈ (extract_resource records).ips ↔ ip ∈ records.filterMap addrOf) ∧
    ((extract_resource records).ips = [] →
      process_mdns_packet cache records = cache) ∧
    (∀ w ∈ (extract_resource records).ips, w.isV4 = true →
      ∃ k, (extract_resource records).ips.find? Ip.isV4 = some k ∧
        process_mdns_packet cache records =
          mapInsert k (extract_resource records) cache) ∧
    ((∀ ip ∈ (extract_resource records).ips, Ip.isV4 ip = false) →
      ∀ w ∈ (extract_resource records).ips, w.isLinkLocalV6 = true →
        ∃ k, (extract_resource records).ips.find? Ip.isLinkLocalV6 = some k ∧
          process_mdns_packet cache records =
            mapInsert k (extract_resource records) cache) ∧
    ((∀ ip ∈ (extract_resource records).ips,
        Ip.isV4 ip = false ∧ Ip.isLinkLocalV6 ip = false) →
      (extract_resource records).ips ≠ [] →
      ∃ k, (extract_resource records).ips.head? = some k ∧
        process_mdns_packet cache records =
          mapInsert k (extract_resource records) cache) := by
  refine ⟨extract_resource_hostname records,
    extract_resource_mem_ips records, ?_, ?_, ?_, ?_⟩
  · intro hemp
    unfold process_mdns_packet
    rw [hemp]
    rfl
  · intro w hw hw4
    obtain ⟨k, hk, hk4⟩ := preferred_ip_of_v4_mem hw hw4
    refine ⟨k, ?_, ?_⟩
    · unfold preferred_ip at hk
      revert hk
      split
      · next heq => intro hk; injection hk with hk; rw [hk] at heq; exact heq
      · next heq =>
        intro hk
        exfalso
        obtain ⟨w2, hw2⟩ := Option.isSome_iff_exists.mp
          (by rw [List.find?_isSome]; exact ⟨w, hw, hw4⟩)
        rw [heq] at hw2
        exact Option.noConfusion hw2
    · unfold process_mdns_packet
      rw [hk]
  · intro hnov4 w hw hll
    obtain ⟨k, hfind, hpref⟩ := preferred_ip_of_ll_mem hnov4 hw hll
    refine ⟨k, hfind, ?_⟩
    unfold process_mdns_packet
    rw [hpref]
  · intro hno hne
    obtain ⟨k, hfind, hpref⟩ := preferred_ip_of_plain hno hne
    refine ⟨k, hfind, ?_⟩
    unfold process_mdns_packet
    rw [hpref]

/-- Counterexample for claim C2 as stated: with two non-arpa PTR names in
the walk, the code keeps the last one, not the first. -/
theorem process_mdns_packet_first_ptr_refuted :
    (extract_resource
        [.ptr "alpha.local".toList, .ptr "beta.local".toList]).hostname =
      some "beta.local".toList ∧
    first_non_arpa_ptr [.ptr "alpha.local".toList, .ptr "beta.local".toList] =
      some "alpha.local".toList ∧
    (extract_resource
        [.ptr "alpha.local".toList, .ptr "beta.local".toList]).hostname ≠
      first_non_arpa_ptr
        [.ptr "alpha.local".toList, .ptr "beta.local".toList] := by
  refine ⟨by decide, by decide, by decide⟩

/-! ## Local scanner reception (`core/src/scanner/local.rs`) -/

/-- The decoded payload of a received Ethernet frame, as far as
`process_eth_packet` inspects it: ARP sender protocol address, IPv4 source,
IPv6 source plus (possibly undecodable) IPv6 destination, or an
unsupported EtherType. -/
inductive FramePayload where
  | arp (sender_addr : Nat)
  | ipv4 (src_addr : Nat)
  | ipv6 (src_addr : Nat) (dst_addr : Option Nat)
  | other
deriving DecidableEq, Repr

/-- A received Ethernet frame after `ethernet::get_packet_from_u8`. -/
structure EthFrame where
  src_mac : Nat
  payload : FramePayload
deriving DecidableEq, Repr

/-- Embeds `protocol::get_ip_addr_from_eth`: the source IP extracted per
EtherType, failing on unsupported types. -/
def get_ip_addr_from_eth (f : EthFrame) : Option Ip :=
  match f.payload with
  | .arp sender => some (.v4 sender)
  | .ipv4 src => some (.v4 src)
  | .ipv6 src _ => some (.v6 src)
  | .other => none

/-- The mutable state of `LocalScanner` touched by `process_eth_packet`:
hosts keyed by source MAC, the RTT start-time map, the found-host counter,
the IPs forwarded to the resolver, and the timer's `last_seen`. -/
structure LocalScanState where
  hosts_map : List (Nat × Host)
  rtt_map : List (Ip × Nat)
  found_count : Nat
  dns_out : List Ip
  last_seen : Nat
deriving DecidableEq, Repr

/-- Embeds `LocalScanner::calculate_rtt`: ARP replies consume their `rtt_map`
entry; IPv6 frames with a link-local destination read theirs without
removing it; all error paths are swallowed by the caller into `none`. -/
def calculate_rtt (rtt_map : List (Ip × Nat)) (f : EthFrame) (now : Nat) :
    Option Nat × List (Ip × Nat) :=
  match f.payload with
  | .arp sender =>
    match mapLookup (Ip.v4 sender) rtt_map with
    | some t0 => (some (now - t0), mapErase (Ip.v4 sender) rtt_map)
    | none => (none, rtt_map)
  | .ipv6 _ dst =>
    match dst with
    | none => (none, rtt_map)
    | some d =>
      if Ip.isLinkLocalV6 (.v6 d) then
        match mapLookup (Ip.v6 d) rtt_map with
        | some t0 => (some (now - t0), rtt_map)
        | none => (none, rtt_map)
      else (none, rtt_map)
  | _ => (none, rtt_map)

/-- Embeds `LocalScanner::process_eth_packet`: drop self-echo, extract the source
IP, require it to be in a local subnet, drop IPv6 from unknown MACs unless
`IS_LAN_SCAN`, then compute the RTT and upsert the host keyed by source
MAC, forwarding new IPs to the resolver. -/
def process_eth_packet (local_mac : Nat) (in_subnet : Ip → Bool) (lan : Bool)
    (s : LocalScanState) (f : EthFrame) (now : Nat) : LocalScanState :=
  if f.src_mac = local_mac then s
  else
    match get_ip_addr_from_eth f with
    | none => s
    | some src_ip =>
      if !in_subnet src_ip then s
      else if src_ip.isV6 && !lan && (mapLookup f.src_mac s.hosts_map).isNone then
        s
      else
        let rr := calculate_rtt s.rtt_map f now
        let (h0, is_new, found', seen') :=
          match mapLookup f.src_mac s.hosts_map with
          | some h => (h, false, s.found_count, s.last_seen)
          | none => ((Host.new src_ip).with_mac f.src_mac, true,
              s.found_count + 1, now)
        let h1 := match rr.1 with
          | some d => h0.add_rtt d
          | none => h0
        let is_new_ip := decide (src_ip ∉ h1.ips)
        let h2 := h1.observe_ip src_ip
        { hosts_map := mapInsert f.src_mac h2 s.hosts_map
          rtt_map := rr.2
          found_count := found'
          dns_out := if is_new || is_new_ip then s.dns_out ++ [src_ip]
            else s.dns_out
          last_seen := seen' }

/-- Claim C9: a received frame whose extracted source IP is IPv6, arriving
while `IS_LAN_SCAN` is not set from a source MAC that is not yet a key of
the host map, leaves the scanner state unchanged: no host is inserted or
updated, no IP is forwarded to the resolver, and the found-host counter is
not incremented. -/
theorem ipv6_unknown_mac_dropped (local_mac : Nat) (in_subnet : Ip → Bool)
    (s : LocalScanState) (f : EthFrame) (now : Nat) (src : Nat)
    (dst : Option Nat) (hp : f.payload = .ipv6 src dst)
    (hnew : mapLookup f.src_mac s.hosts_map = none) :
    process_eth_packet local_mac in_subnet false s f now = s := by
  unfold process_eth_packet
  split
  · rfl
  · simp only [get_ip_addr_from_eth, hp]
    split
    · rfl
    · simp [Ip.isV6, hnew]

/-- Evaluation witness for the claim C9 theorem on a concrete IPv6 frame
from an unknown MAC with a non-empty scanner state. -/
theorem ipv6_unknown_mac_dropped_witness :
    process_eth_packet 1 (fun _ => true) false
        ⟨[(9, Host.new (.v4 7))], [(Ip.v4 3, 50)], 1, [.v4 7], 20⟩
        ⟨2, .ipv6 77 (some 88)⟩ 100 =
      ⟨[(9, Host.new (.v4 7))], [(Ip.v4 3, 50)], 1, [.v4 7], 20⟩ :=
  ipv6_unknown_mac_dropped 1 (fun _ => true)
    ⟨[(9, Host.new (.v4 7))], [(Ip.v4 3, 50)], 1, [.v4 7], 20⟩
    ⟨2, .ipv6 77 (some 88)⟩ 100 77 (some 88) rfl (by decide)

/-! ## Routed scanner reception (`core/src/scanner/routed.rs`) -/

/-- The mutable state of `RoutedScanner` touched by one received TCP
segment: responded IPs with their RTT deques, the `(ip, seq)`-keyed RTT
start-time map, the found-host counter and the IPs forwarded to the
resolver. -/
structure RoutedScanState where
  responded_ips : List (Ip × List Nat)
  rtt_map : List ((Ip × Nat) × Nat)
  found_count : Nat
  dns_out : List Ip
deriving DecidableEq, Repr

/-- Embeds `u32::wrapping_sub(1)` on the acknowledgement number. -/
def wrappingPred (ack : Nat) : Nat :=
  (ack + (2 ^ 32 - 1)) % 2 ^ 32

/-- The receive arm of `RoutedScanner::discover_hosts` for one `(bytes,
src_ip)` pair: ignore non-targets, `or_default` the responded entry
(counting and notifying on first contact), then — when the bytes parse as
TCP, yielding `ack` — look up `(src_ip, ack - 1)` in `rtt_map`; on a hit
the elapsed time is pushed onto the host's deque and the entry is
removed. -/
def process_tcp_response (targets : Ip → Bool) (s : RoutedScanState)
    (src_ip : Ip) (ack? : Option Nat) (now : Nat) : RoutedScanState :=
  if !targets src_ip then s
  else
    let is_new := (mapLookup src_ip s.responded_ips).isNone
    let lat := (mapLookup src_ip s.responded_ips).getD []
    let found' := if is_new then s.found_count + 1 else s.found_count
    let dns' := if is_new then s.dns_out ++ [src_ip] else s.dns_out
    match ack? with
    | none => ⟨mapInsert src_ip lat s.responded_ips, s.rtt_map, found', dns'⟩
    | some ack =>
      let sq := wrappingPred ack
      match mapLookup (src_ip, sq) s.rtt_map with
      | some t0 =>
        ⟨mapInsert src_ip (lat ++ [now - t0]) s.responded_ips,
          mapErase (src_ip, sq) s.rtt_map, found', dns'⟩
      | none => ⟨mapInsert src_ip lat s.responded_ips, s.rtt_map, found', dns'⟩

/-- Claim C3 (amended): for a TCP segment from a target IP carrying
acknowledgement number `ack`, the scanner computes `s = ack - 1` (wrapping)
and, when `rtt_map[(src_ip, s)]` exists, appends the elapsed time at the
back of that host's RTT list and REMOVES the entry, so responses matched to
distinct outstanding SYNs are appended in arrival order, while a second
response acknowledging the same SYN finds no entry and appends nothing;
segments from non-target IPs are ignored entirely. -/
theorem routed_rtt_correlation (targets : Ip → Bool) (s : RoutedScanState)
    (src_ip : Ip) (ack now : Nat) (htgt : targets src_ip = true) :
    (∀ t0, mapLookup (src_ip, wrappingPred ack) s.rtt_map = some t0 →
      mapLookup src_ip
          (process_tcp_response targets s src_ip (some ack) now).responded_ips =
        some ((mapLookup src_ip s.responded_ips).getD [] ++ [now - t0]) ∧
      mapLookup (src_ip, wrappingPred ack)
          (process_tcp_response targets s src_ip (some ack) now).rtt_map =
        none) ∧
    (mapLookup (src_ip, wrappingPred ack) s.rtt_map = none →
      mapLookup src_ip
          (process_tcp_response targets s src_ip (some ack) now).responded_ips =
        some ((mapLookup src_ip s.responded_ips).getD []) ∧
      (process_tcp_response targets s src_ip (some ack) now).rtt_map =
        s.rtt_map) ∧
    (∀ tg2 : Ip → Bool, ∀ ip2 a2 n2, tg2 ip2 = false →
      process_tcp_response tg2 s ip2 a2 n2 = s) := by
  refine ⟨?_, ?_, ?_⟩
  · intro t0 hhit
    unfold process_tcp_response
    simp only [htgt, Bool.not_true, Bool.false_eq_true, if_false, hhit]
    exact ⟨mapLookup_mapInsert_self _ _ _, mapLookup_mapErase_self _ _⟩
  · intro hmiss
    unfold process_tcp_response
    simp [htgt, hmiss, mapLookup_mapInsert_self]
  · intro tg2 ip2 a2 n2 hng
    unfold process_tcp_response
    simp [hng]

/-- Evaluation witness for the claim C3 theorem: one outstanding SYN with
sequence 5 for `10.0.0.1` (encoded as `.v4 1`), answered by a segment with
`ack = 6` at `now = 150`. -/
theorem routed_rtt_correlation_witness :
    (∀ t0,
      mapLookup (Ip.v4 1, wrappingPred 6)
          (RoutedScanState.mk [] [((Ip.v4 1, 5), 100)] 0 []).rtt_map =
        some t0 →
      mapLookup (Ip.v4 1)
          (process_tcp_response (fun ip => decide (ip = Ip.v4 1))
              ⟨[], [((Ip.v4 1, 5), 100)], 0, []⟩ (Ip.v4 1) (some 6)
              150).responded_ips =
        some ((mapLookup (Ip.v4 1)
            (RoutedScanState.mk [] [((Ip.v4 1, 5), 100)] 0 []).responded_ips).getD
          [] ++ [150 - t0]) ∧
      mapLookup (Ip.v4 1, wrappingPred 6)
          (process_tcp_response (fun ip => decide (ip = Ip.v4 1))
              ⟨[], [((Ip.v4 1, 5), 100)], 0, []⟩ (Ip.v4 1) (some 6)
              150).rtt_map =
        none) ∧
    (mapLookup (Ip.v4 1, wrappingPred 6)
        (RoutedScanState.mk [] [((Ip.v4 1, 5), 100)] 0 []).rtt_map = none →
      mapLookup (Ip.v4 1)
          (process_tcp_response (fun ip => decide (ip = Ip.v4 1))
              ⟨[], [((Ip.v4 1, 5), 100)], 0, []⟩ (Ip.v4 1) (some 6)
              150).responded_ips =
        some ((mapLookup (Ip.v4 1)
            (RoutedScanState.mk [] [((Ip.v4 1, 5), 100)] 0 []).responded_ips).getD
          []) ∧
      (process_tcp_response (fun ip => decide (ip = Ip.v4 1))
          ⟨[], [((Ip.v4 1, 5), 100)], 0, []⟩ (Ip.v4 1) (some 6) 150).rtt_map =
        (RoutedScanState.mk [] [((Ip.v4 1, 5), 100)] 0 []).rtt_map) ∧
    (∀ tg2 : Ip → Bool, ∀ ip2 a2 n2, tg2 ip2 = false →
      process_tcp_response tg2 ⟨[], [((Ip.v4 1, 5), 100)], 0, []⟩ ip2 a2 n2 =
        ⟨[], [((Ip.v4 1, 5), 100)], 0, []⟩) :=
  routed_rtt_correlation (fun ip => decide (ip = Ip.v4 1))
    ⟨[], [((Ip.v4 1, 5), 100)], 0, []⟩ (Ip.v4 1) 6 150 (by decide)

/-- Counterexample for claim C3 as stated: two segments from the same
target, both acknowledging the same SYN (sequence 5, `ack = 6`). The claim
says both elapsed times are appended; in the code the first hit removes
the `rtt_map` entry, so the host's RTT list ends up with one sample, not
two. -/
theorem routed_rtt_retransmit_refuted :
    ((mapLookup (Ip.v4 1)
        (process_tcp_response (fun ip => decide (ip = Ip.v4 1))
            (process_tcp_response (fun ip => decide (ip = Ip.v4 1))
              ⟨[], [((Ip.v4 1, 5), 100)], 0, []⟩ (Ip.v4 1) (some 6) 150)
            (Ip.v4 1) (some 6) 160).responded_ips).map List.length =
      some 1) ∧
    ((mapLookup (Ip.v4 1)
        (process_tcp_response (fun ip => decide (ip = Ip.v4 1))
            (process_tcp_response (fun ip => decide (ip = Ip.v4 1))
              ⟨[], [((Ip.v4 1, 5), 100)], 0, []⟩ (Ip.v4 1) (some 6) 150)
            (Ip.v4 1) (some 6) 160).responded_ips).map List.length ≠
      some 2) := by
  refine ⟨by decide, by decide⟩

/-! ## IP collections (`common/src/models/range.rs`) -/

/-- Embeds `Ipv4Range::to_iter`: the addresses `start ..= end` (empty when
inverted). -/
def Ipv4Range.elems (r : Ipv4Range) : List Nat :=
  List.range' r.start_addr (r.end_addr + 1 - r.start_addr)

/-- Embeds `IpCollection`: a list of ranges plus a set of singles (the `HashSet`
modelled as a duplicate-free list). -/
structure IpCollection where
  ranges : List Ipv4Range
  singles : List Ip
deriving DecidableEq, Repr

/-- Embeds `IpCollection::len`: the sum of the range sizes plus the number of
singles. -/
def IpCollection.len (c : IpCollection) : Nat :=
  (c.ranges.map Ipv4Range.len).sum + c.singles.length

/-- Embeds `IpCollection::contains`: a member of `singles`, or an IPv4 covered by
some range. -/
def IpCollection.containsIp (c : IpCollection) (ip : Ip) : Bool :=
  decide (ip ∈ c.singles) ||
    match ip with
    | .v4 a => c.ranges.any (fun r => r.containsAddr a)
    | .v6 _ => false

/-- Embeds `IpCollection::iter`: all range elements in order, chained with the
singles that are not IPv4 addresses already covered by some range. -/
def IpCollection.iterList (c : IpCollection) : List Ip :=
  (c.ranges.flatMap (fun r => r.elems.map Ip.v4)) ++
    c.singles.filter (fun ip =>
      match ip with
      | .v4 a => !c.ranges.any (fun r => r.containsAddr a)
      | .v6 _ => true)

theorem count_elems_map (r : Ipv4Range) (a : Nat) :
    (r.elems.map Ip.v4).count (Ip.v4 a) =
      if r.containsAddr a = true then 1 else 0 := by
  have hinj : Function.Injective Ip.v4 := by
    intro x y h
    injection h with hh
  rw [List.count_map_of_injective _ _ hinj a]
  unfold Ipv4Range.elems Ipv4Range.containsAddr
  by_cases hc : r.start_addr ≤ a ∧ a ≤ r.end_addr
  · have hmem : a ∈ List.range' r.start_addr (r.end_addr + 1 - r.start_addr) := by
      rw [List.mem_range'_1]
      omega
    rw [List.count_eq_one_of_mem (List.nodup_range' _ _) hmem]
    simp [hc.1, hc.2]
  · have hmem : a ∉ List.range' r.start_addr (r.end_addr + 1 - r.start_addr) := by
      rw [List.mem_range'_1]
      omega
    rw [List.count_eq_zero_of_not_mem hmem]
    have : ¬(decide (r.start_addr ≤ a) && decide (a ≤ r.end_addr)) = true := by
      simp only [Bool.and_eq_true, decide_eq_true_eq]
      exact hc
    simp [this]

/-- Two ranges share no address. -/
def RangesDisjoint (r1 r2 : Ipv4Range) : Prop :=
  ∀ a : Nat, ¬(r1.containsAddr a = true ∧ r2.containsAddr a = true)

theorem count_flatMap_disjoint (rs : List Ipv4Range) (a : Nat)
    (hdisj : rs.Pairwise RangesDisjoint) :
    (rs.flatMap (fun r => r.elems.map Ip.v4)).count (Ip.v4 a) =
      if rs.any (fun r => r.containsAddr a) = true then 1 else 0 := by
  induction rs with
  | nil => simp
  | cons r rest ih =>
    rw [List.pairwise_cons] at hdisj
    rw [List.flatMap_cons, List.count_append, count_elems_map,
      ih hdisj.2]
    by_cases hr : r.containsAddr a = true
    · have hrest : rest.any (fun x => x.containsAddr a) = false := by
        rw [Bool.eq_false_iff]
        intro hany
        rw [List.any_eq_true] at hany
        obtain ⟨r2, hr2, hr2c⟩ := hany
        exact hdisj.1 r2 hr2 a ⟨hr, hr2c⟩
      simp [hr, hrest]
    · simp only [if_neg hr]
      by_cases hrest : rest.any (fun x => x.containsAddr a) = true
      · simp [hr, hrest, List.any_cons]
      · simp only [Bool.not_eq_true] at hrest
        simp [hr, hrest, List.any_cons]

theorem count_filter_nodup {l : List Ip} (p : Ip → Bool) (ip : Ip)
    (hnd : l.Nodup) :
    (l.filter p).count ip =
      if ip ∈ l ∧ p ip = true then 1 else 0 := by
  by_cases h : ip ∈ l ∧ p ip = true
  · rw [List.count_eq_one_of_mem (hnd.filter p)
      (List.mem_filter.mpr ⟨h.1, h.2⟩)]
    simp [h]
  · rw [List.count_eq_zero_of_not_mem]
    · simp [h]
    · intro hmem
      exact h ⟨(List.mem_filter.mp hmem).1, (List.mem_filter.mp hmem).2⟩

/-- Claim C4 (amended): for an `IpCollection` whose ranges are pairwise
disjoint, `IpCollection::iter` yields every contained IP exactly once, with
IPv4 singles already covered by some range suppressed; with overlapping
ranges (possible after a non-compacted `extend`) range elements are
repeated. -/
theorem iter_yields_each_ip_once (c : IpCollection)
    (hdisj : c.ranges.Pairwise RangesDisjoint) (hnd : c.singles.Nodup)
    (ip : Ip) :
    c.iterList.count ip = if c.containsIp ip = true then 1 else 0 := by
  unfold IpCollection.iterList IpCollection.containsIp
  rw [List.count_append]
  cases ip with
  | v4 a =>
    rw [count_flatMap_disjoint c.ranges a hdisj,
      count_filter_nodup _ (Ip.v4 a) hnd]
    by_cases hcov : c.ranges.any (fun r => r.containsAddr a) = true
    · simp [hcov]
    · simp only [Bool.not_eq_true] at hcov
      by_cases hmem : Ip.v4 a ∈ c.singles
      · simp [hcov, hmem]
      · simp [hcov, hmem]
  | v6 a =>
    have hzero : (c.ranges.flatMap (fun r => r.elems.map Ip.v4)).count
        (Ip.v6 a) = 0 := by
      rw [List.count_eq_zero_of_not_mem]
      intro hmem
      rw [List.mem_flatMap] at hmem
      obtain ⟨r, _, hr⟩ := hmem
      rw [List.mem_map] at hr
      obtain ⟨x, _, hx⟩ := hr
      exact Ip.noConfusion hx
    rw [hzero, count_filter_nodup _ (Ip.v6 a) hnd]
    by_cases hmem : Ip.v6 a ∈ c.singles
    · simp [hmem]
    · simp [hmem]

/-- Evaluation witness for the claim C4 theorem: a collection with two
disjoint ranges and three singles, evaluated at the covered single
`.v4 2` (yielded once, from the range; the single itself is
suppressed). -/
theorem iter_yields_each_ip_once_witness :
    (IpCollection.mk [⟨1, 2⟩, ⟨5, 6⟩] [.v4 2, .v4 9, .v6 3]).iterList.count
        (Ip.v4 2) =
      if (IpCollection.mk [⟨1, 2⟩, ⟨5, 6⟩]
          [.v4 2, .v4 9, .v6 3]).containsIp (Ip.v4 2) = true then 1
      else 0 :=
  iter_yields_each_ip_once
    (IpCollection.mk [⟨1, 2⟩, ⟨5, 6⟩] [.v4 2, .v4 9, .v6 3])
    (by
      refine List.pairwise_cons.mpr
        ⟨?_, List.pairwise_cons.mpr ⟨?_, List.Pairwise.nil⟩⟩
      · intro r hr a ha
        rw [List.mem_singleton] at hr
        subst hr
        simp only [Ipv4Range.containsAddr, Bool.and_eq_true,
          decide_eq_true_eq] at ha
        omega
      · intro r hr
        exact absurd hr (List.not_mem_nil r))
    (by decide) (Ip.v4 2)

/-- Counterexample for claim C4 as stated: a collection holding the range
`[1, 1]` twice — obtainable by `extend`ing without `compact` — yields the
contained address `1` twice, not exactly once. -/
theorem iter_overlapping_ranges_refuted :
    (IpCollection.mk [⟨1, 1⟩, ⟨1, 1⟩] []).containsIp (Ip.v4 1) = true ∧
    (IpCollection.mk [⟨1, 1⟩, ⟨1, 1⟩] []).iterList.count (Ip.v4 1) = 2 ∧
    (IpCollection.mk [⟨1, 1⟩, ⟨1, 1⟩] []).iterList.count (Ip.v4 1) ≠ 1 := by
  refine ⟨by decide, by decide, by decide⟩

/-! ## Range compaction (`IpCollection::compact`) -/

/-- The key relation of `sort_by_key(|r| r.start_addr)`. -/
def startLe (r1 r2 : Ipv4Range) : Prop := r1.start_addr ≤ r2.start_addr

instance : DecidableRel startLe := fun r1 r2 =>
  inferInstanceAs (Decidable (r1.start_addr ≤ r2.start_addr))

instance : IsTotal Ipv4Range startLe :=
  ⟨fun r1 r2 => Nat.le_total r1.start_addr r2.start_addr⟩

instance : IsTrans Ipv4Range startLe :=
  ⟨fun _ _ _ h1 h2 => Nat.le_trans h1 h2⟩

/-- The merge loop of `IpCollection::compact` over the sorted ranges:
`current` absorbs the next range when `next.start ≤
current.end.saturating_add(1)`, extending its end only when the next end
is larger; otherwise `current` is pushed and the next range takes over. -/
def mergeGo (c : Ipv4Range) : List Ipv4Range → List Ipv4Range
  | [] => [c]
  | n :: rest =>
    if n.start_addr ≤ satSucc c.end_addr then
      mergeGo
        ⟨c.start_addr,
          if c.end_addr < n.end_addr then n.end_addr else c.end_addr⟩ rest
    else c :: mergeGo n rest

/-- The range part of `IpCollection::compact`: stable sort by start
address (Rust's `sort_by_key`), then the merge loop seeded with the first
range. -/
def compactRanges (rs : List Ipv4Range) : List Ipv4Range :=
  match List.insertionSort startLe rs with
  | [] => []
  | h :: t => mergeGo h t

/-- Embeds `IpCollection::compact`: drain the IPv4 singles into one-element
ranges, then sort and merge all ranges. -/
def IpCollection.compact (c : IpCollection) : IpCollection :=
  ⟨compactRanges (c.ranges ++
      (c.singles.filterMap fun ip =>
        match ip with
        | .v4 a => some a
        | .v6 _ => none).map (fun a => Ipv4Range.new a a)),
    c.singles.filter (fun ip => !ip.isV4)⟩

theorem mergeGo_spec (l : List Ipv4Range) :
    ∀ c : Ipv4Range,
    c.start_addr ≤ c.end_addr →
    c.end_addr ≤ u32Max →
    (∀ r ∈ l, r.start_addr ≤ r.end_addr ∧ r.end_addr ≤ u32Max) →
    (∀ r ∈ l, c.start_addr ≤ r.start_addr) →
    l.Pairwise startLe →
    (∃ e t, mergeGo c l = ⟨c.start_addr, e⟩ :: t) ∧
    List.Chain' (fun r1 r2 => satSucc r1.end_addr < r2.start_addr)
      (mergeGo c l) ∧
    (∀ r ∈ mergeGo c l, r.start_addr ≤ r.end_addr ∧ r.end_addr ≤ u32Max) ∧
    (∀ a : Nat,
      (c.containsAddr a = true ∨ ∃ r ∈ l, r.containsAddr a = true) →
      ∃ r ∈ mergeGo c l, r.containsAddr a = true) := by
  induction l with
  | nil =>
    intro c hws hwb _ _ _
    refine ⟨⟨c.end_addr, [], rfl⟩, by simp [mergeGo], ?_, ?_⟩
    · intro r hr
      simp only [mergeGo, List.mem_singleton] at hr
      subst hr
      exact ⟨hws, hwb⟩
    · intro a ha
      rcases ha with ha | ⟨r, hr, _⟩
      · exact ⟨c, by simp [mergeGo], ha⟩
      · exact absurd hr (List.not_mem_nil r)
  | cons n rest ih =>
    intro c hws hwb hwl hcs hsort
    rw [List.pairwise_cons] at hsort
    have hnw := hwl n (List.mem_cons_self n rest)
    have hcn := hcs n (List.mem_cons_self n rest)
    by_cases hm : n.start_addr ≤ satSucc c.end_addr
    · have hrec := ih
        ⟨c.start_addr,
          if c.end_addr < n.end_addr then n.end_addr else c.end_addr⟩
        (by show c.start_addr ≤ if c.end_addr < n.end_addr then n.end_addr
              else c.end_addr
            split <;> omega)
        (by show (if c.end_addr < n.end_addr then n.end_addr
              else c.end_addr) ≤ u32Max
            have := hnw.2
            split <;> omega)
        (fun r hr => hwl r (List.mem_cons_of_mem n hr))
        (fun r hr => hcs r (List.mem_cons_of_mem n hr))
        hsort.2
      obtain ⟨⟨e, t, hhead⟩, hchain, hwf, hcov⟩ := hrec
      have hout : mergeGo c (n :: rest) =
          mergeGo ⟨c.start_addr,
            if c.end_addr < n.end_addr then n.end_addr else c.end_addr⟩
            rest := by
        simp [mergeGo, hm]
      rw [hout]
      refine ⟨⟨e, t, hhead⟩, hchain, hwf, ?_⟩
      intro a ha
      apply hcov
      rcases ha with ha | ⟨r, hr, hrc⟩
      · left
        simp only [Ipv4Range.containsAddr, Bool.and_eq_true,
          decide_eq_true_eq] at ha ⊢
        refine ⟨by omega, ?_⟩
        split <;> omega
      · rcases List.mem_cons.mp hr with rfl | hr2
        · left
          simp only [Ipv4Range.containsAddr, Bool.and_eq_true,
            decide_eq_true_eq] at hrc ⊢
          refine ⟨by omega, ?_⟩
          split <;> omega
        · exact Or.inr ⟨r, hr2, hrc⟩
    · have hrec := ih n hnw.1 hnw.2
        (fun r hr => hwl r (List.mem_cons_of_mem n hr))
        (fun r hr => hsort.1 r hr)
        hsort.2
      obtain ⟨⟨e, t, hhead⟩, hchain, hwf, hcov⟩ := hrec
      have hout : mergeGo c (n :: rest) = c :: mergeGo n rest := by
        simp [mergeGo, hm]
      rw [hout]
      refine ⟨⟨c.end_addr, mergeGo n rest, rfl⟩, ?_, ?_, ?_⟩
      · rw [hhead]
        refine List.Chain'.cons ?_ (hhead ▸ hchain)
        show satSucc c.end_addr < n.start_addr
        omega
      · intro r hr
        rcases List.mem_cons.mp hr with rfl | hr2
        · exact ⟨hws, hwb⟩
        · exact hwf r hr2
      · intro a ha
        rcases ha with ha | ⟨r, hr, hrc⟩
        · exact ⟨c, List.mem_cons_self c _, ha⟩
        · rcases List.mem_cons.mp hr with rfl | hr2
          · obtain ⟨r2, hr2m, hr2c⟩ := hcov a (Or.inl hrc)
            exact ⟨r2, List.mem_cons_of_mem c hr2m, hr2c⟩
          · obtain ⟨r2, hr2m, hr2c⟩ := hcov a (Or.inr ⟨r, hr2, hrc⟩)
            exact ⟨r2, List.mem_cons_of_mem c hr2m, hr2c⟩

theorem compactRanges_spec (rs : List Ipv4Range)
    (hwf : ∀ r ∈ rs, r.start_addr ≤ r.end_addr ∧ r.end_addr ≤ u32Max) :
    List.Chain' (fun r1 r2 => satSucc r1.end_addr < r2.start_addr)
      (compactRanges rs) ∧
    (∀ r ∈ compactRanges rs,
      r.start_addr ≤ r.end_addr ∧ r.end_addr ≤ u32Max) ∧
    (∀ a : Nat, (∃ r ∈ rs, r.containsAddr a = true) →
      ∃ r ∈ compactRanges rs, r.containsAddr a = true) := by
  have hperm := List.perm_insertionSort startLe rs
  have hsorted := List.sorted_insertionSort startLe rs
  unfold compactRanges
  cases heq : List.insertionSort startLe rs with
  | nil =>
    refine ⟨List.chain'_nil, by simp, ?_⟩
    rintro a ⟨r, hr, _⟩
    rw [heq] at hperm
    have := hperm.symm.mem_iff.mp hr
    exact absurd this (List.not_mem_nil r)
  | cons h t =>
    rw [heq] at hperm hsorted
    rw [List.sorted_cons] at hsorted
    have hwfs : ∀ r ∈ h :: t,
        r.start_addr ≤ r.end_addr ∧ r.end_addr ≤ u32Max :=
      fun r hr => hwf r (hperm.mem_iff.mp hr)
    obtain ⟨_, hchain, hwfo, hcov⟩ :=
      mergeGo_spec t h (hwfs h (List.mem_cons_self h t)).1
        (hwfs h (List.mem_cons_self h t)).2
        (fun r hr => hwfs r (List.mem_cons_of_mem h hr))
        (fun r hr => hsorted.1 r hr)
        hsorted.2
    refine ⟨hchain, hwfo, ?_⟩
    rintro a ⟨r, hr, hrc⟩
    have hrs : r ∈ h :: t := hperm.mem_iff.mpr hr
    apply hcov
    rcases List.mem_cons.mp hrs with rfl | hr2
    · exact Or.inl hrc
    · exact Or.inr ⟨r, hr2, hrc⟩

theorem chain_sep_of_chain_sat (l : List Ipv4Range)
    (hwf : ∀ r ∈ l, r.start_addr ≤ r.end_addr ∧ r.end_addr ≤ u32Max)
    (hch : List.Chain' (fun r1 r2 => satSucc r1.end_addr < r2.start_addr) l) :
    List.Chain' (fun r1 r2 => r1.end_addr + 1 < r2.start_addr) l := by
  induction l with
  | nil => exact List.chain'_nil
  | cons a l ih =>
    cases l with
    | nil => simp
    | cons b m =>
      rw [List.chain'_cons] at hch ⊢
      refine ⟨?_, ih (fun r hr => hwf r (List.mem_cons_of_mem a hr)) hch.2⟩
      have hb := hwf b (List.mem_cons_of_mem a (List.mem_cons_self b m))
      have hab := hch.1
      unfold satSucc u32Max at hab
      unfold u32Max at hb
      omega

theorem sep_head (l : List Ipv4Range) :
    ∀ a : Ipv4Range,
    (∀ r ∈ a :: l, r.start_addr ≤ r.end_addr) →
    List.Chain' (fun r1 r2 => r1.end_addr + 1 < r2.start_addr) (a :: l) →
    ∀ b ∈ l, a.end_addr + 1 < b.start_addr := by
  induction l with
  | nil =>
    intro a _ _ b hb
    exact absurd hb (List.not_mem_nil b)
  | cons c m ih =>
    intro a hwf hch b hb
    rw [List.chain'_cons] at hch
    rcases List.mem_cons.mp hb with rfl | hb2
    · exact hch.1
    · have hc := hwf c (List.mem_cons_of_mem a (List.mem_cons_self c m))
      have := ih c (fun r hr => hwf r (List.mem_cons_of_mem a hr)) hch.2 b hb2
      omega

theorem pairwise_sep_of_chain (l : List Ipv4Range)
    (hwf : ∀ r ∈ l, r.start_addr ≤ r.end_addr)
    (hch : List.Chain' (fun r1 r2 => r1.end_addr + 1 < r2.start_addr) l) :
    List.Pairwise (fun r1 r2 => r1.end_addr + 1 < r2.start_addr) l := by
  induction l with
  | nil => exact List.Pairwise.nil
  | cons a l ih =>
    rw [List.pairwise_cons]
    refine ⟨sep_head l a hwf hch, ?_⟩
    exact ih (fun r hr => hwf r (List.mem_cons_of_mem a hr)) hch.tail

/-- Claim C6: after `compact()` no two ranges overlap or abut (any two
ranges in list order are separated by at least one address), the ranges
are sorted by strictly increasing start address, every IPv4 single has
been folded into a covering range (none remains in `singles`), and `len`
is the sum of the range sizes plus the number of remaining singles. -/
theorem compact_spec (c : IpCollection)
    (hr : ∀ r ∈ c.ranges, r.start_addr ≤ r.end_addr ∧ r.end_addr ≤ u32Max)
    (hs4 : ∀ a : Nat, Ip.v4 a ∈ c.singles → a ≤ u32Max) :
    List.Pairwise (fun r1 r2 => r1.end_addr + 1 < r2.start_addr)
      c.compact.ranges ∧
    List.Pairwise (fun r1 r2 => r1.start_addr < r2.start_addr)
      c.compact.ranges ∧
    (∀ a : Nat, Ip.v4 a ∈ c.singles →
      ∃ r ∈ c.compact.ranges, r.containsAddr a = true) ∧
    (∀ ip ∈ c.compact.singles, ip.isV4 = false) ∧
    c.compact.len =
      (c.compact.ranges.map Ipv4Range.len).sum + c.compact.singles.length := by
  have hwf1 : ∀ r ∈ c.ranges ++
      (c.singles.filterMap fun ip =>
        match ip with
        | .v4 a => some a
        | .v6 _ => none).map (fun a => Ipv4Range.new a a),
      r.start_addr ≤ r.end_addr ∧ r.end_addr ≤ u32Max := by
    intro r hrm
    rcases List.mem_append.mp hrm with hrm | hrm
    · exact hr r hrm
    · rw [List.mem_map] at hrm
      obtain ⟨a, ha, rfl⟩ := hrm
      rw [List.mem_filterMap] at ha
      obtain ⟨ip, hip, hmatch⟩ := ha
      have ha4 : ip = Ip.v4 a := by
        cases ip with
        | v4 x =>
          simp only at hmatch
          injection hmatch with hx
          rw [hx]
        | v6 x => exact Option.noConfusion hmatch
      subst ha4
      have := hs4 a hip
      simp [Ipv4Range.new, this]
  obtain ⟨hchain, hwfo, hcov⟩ := compactRanges_spec _ hwf1
  have hchain2 := chain_sep_of_chain_sat _ hwfo hchain
  have hpair := pairwise_sep_of_chain _ (fun r hrm => (hwfo r hrm).1) hchain2
  refine ⟨hpair, ?_, ?_, ?_, rfl⟩
  · refine List.Pairwise.imp_of_mem ?_ hpair
    intro r1 r2 h1 _ hsep
    have := (hwfo r1 h1).1
    omega
  · intro a ha
    apply hcov
    refine ⟨Ipv4Range.new a a, ?_, ?_⟩
    · rw [List.mem_append]
      right
      rw [List.mem_map]
      refine ⟨a, ?_, rfl⟩
      rw [List.mem_filterMap]
      exact ⟨Ip.v4 a, ha, rfl⟩
    · simp [Ipv4Range.new, Ipv4Range.containsAddr]
  · intro ip hip
    simp only [IpCollection.compact, List.mem_filter] at hip
    have := hip.2
    simp only [Bool.not_eq_true'] at this
    exact this

/-- Evaluation witness for the claim C6 theorem on a concrete collection:
ranges `[5,9]` and `[1,3]` plus singles `{.v4 4, .v6 2}` compact to the
single range `[1,9]` with only the IPv6 single left. -/
theorem compact_spec_witness :
    List.Pairwise (fun r1 r2 => r1.end_addr + 1 < r2.start_addr)
      (IpCollection.mk [⟨5, 9⟩, ⟨1, 3⟩] [.v4 4, .v6 2]).compact.ranges ∧
    List.Pairwise (fun r1 r2 => r1.start_addr < r2.start_addr)
      (IpCollection.mk [⟨5, 9⟩, ⟨1, 3⟩] [.v4 4, .v6 2]).compact.ranges ∧
    (∀ a : Nat, Ip.v4 a ∈ [Ip.v4 4, Ip.v6 2] →
      ∃ r ∈ (IpCollection.mk [⟨5, 9⟩, ⟨1, 3⟩] [.v4 4, .v6 2]).compact.ranges,
        r.containsAddr a = true) ∧
    (∀ ip ∈ (IpCollection.mk [⟨5, 9⟩, ⟨1, 3⟩] [.v4 4, .v6 2]).compact.singles,
      ip.isV4 = false) ∧
    (IpCollection.mk [⟨5, 9⟩, ⟨1, 3⟩] [.v4 4, .v6 2]).compact.len =
      ((IpCollection.mk [⟨5, 9⟩, ⟨1, 3⟩]
          [.v4 4, .v6 2]).compact.ranges.map Ipv4Range.len).sum +
        (IpCollection.mk [⟨5, 9⟩, ⟨1, 3⟩] [.v4 4, .v6 2]).compact.singles.length :=
  compact_spec (IpCollection.mk [⟨5, 9⟩, ⟨1, 3⟩] [.v4 4, .v6 2])
    (by decide)
    (by
      intro a ha
      simp only [List.mem_cons, List.not_mem_nil, or_false, Ip.v4.injEq,
        reduceCtorEq] at ha
      subst ha
      decide)
